import Mathlib

/-!
Shallow embedding of the synchronization engine in `src/hik_sync.py`.

Python strings are modelled as `List Char` (`Str`), files as the string of
their contents, Python dicts as insertion-ordered association lists and
Python sets as duplicate-free lists.  Network calls (`requests.post`,
`requests.put`) are modelled by boolean success oracles, matching the
try/except success/failure classification in the source.
-/

/-- Python strings, modelled as lists of characters. -/
abbrev Str := List Char

/-- Embed a Lean string literal as a `Str`. -/
def str (s : String) : Str := s.data

/-- Characters removed by Python's `str.strip()`. -/
def isPySpace (c : Char) : Bool :=
  c = ' ' || c = '\t' || c = '\n' || c = '\r' || c = '\x0b' || c = '\x0c'

/-- Python `line.strip()`: drop leading and trailing whitespace. -/
def pyStrip (cs : Str) : Str :=
  ((cs.dropWhile isPySpace).reverse.dropWhile isPySpace).reverse

/-- Python `f.readlines()` (modulo the trailing newline on each returned line,
which the source immediately removes with `strip()`): split the file content
on newline characters; a final fragment not terminated by a newline is still a
line, and an empty final fragment is not. -/
def pyReadLines : Str → List Str
  | [] => []
  | c :: rest =>
    if c = '\n' then [] :: pyReadLines rest
    else
      match pyReadLines rest with
      | [] => [[c]]
      | l :: ls => (c :: l) :: ls

/-- Python `s.split(" ", 1)` followed by unpacking into two variables:
`some (before, after)` when the string contains a space (splitting at the
first one), `none` when it does not (the unpacking raises `ValueError`). -/
def splitFirstSpace : Str → Option (Str × Str)
  | [] => none
  | c :: rest =>
    if c = ' ' then some ([], rest)
    else
      match splitFirstSpace rest with
      | none => none
      | some (a, b) => some (c :: a, b)

/-! ## Dedup ledger (`load_sent_timestamps` / `save_sent_timestamp`) -/

/-- The in-memory dedup mapping `sent_timestamps`: a Python dict from
employee number to a set of timestamps, as an insertion-ordered association
list whose values are duplicate-free lists. -/
abbrev SentMap := List (Str × List Str)

/-- Python `set.add`. -/
def setAdd (s : List Str) (t : Str) : List Str :=
  if t ∈ s then s else s ++ [t]

/-- The dict/set update performed per parsed ledger line in
`load_sent_timestamps` (and at line 155 of the source): ensure the key is
present and add the timestamp to its set. -/
def mapAdd : SentMap → Str → Str → SentMap
  | [], e, t => [(e, [t])]
  | (k, s) :: rest, e, t =>
    if k = e then (k, setAdd s t) :: rest else (k, s) :: mapAdd rest e t

/-- Python `employee_no in sent_timestamps`. -/
def hasKey : SentMap → Str → Bool
  | [], _ => false
  | (k, _) :: rest, e => k = e || hasKey rest e

/-- Python `sent_timestamps[employee_no]` (as an option). -/
def lookupKey : SentMap → Str → Option (List Str)
  | [], _ => none
  | (k, s) :: rest, e => if k = e then some s else lookupKey rest e

/-- Membership of a `(subject, timestamp)` pair in the in-memory mapping:
Python `timestamp in sent_timestamps[employee_no]` guarded by key presence. -/
def memTs (m : SentMap) (e t : Str) : Bool :=
  match lookupKey m e with
  | some s => decide (t ∈ s)
  | none => false

/-- Lines 145-146 of the source: `if employee_no not in sent_timestamps:
sent_timestamps[employee_no] = set()`. -/
def ensureKey (m : SentMap) (e : Str) : SentMap :=
  if hasKey m e then m else m ++ [(e, [])]

/-- Parsing of one ledger line in `load_sent_timestamps`:
`employee_no, timestamp = line.strip().split(" ", 1)`; `none` models the
`ValueError` raised when the stripped line contains no space. -/
def parseLine (line : Str) : Option (Str × Str) :=
  splitFirstSpace (pyStrip line)

/-- The loop of `load_sent_timestamps` over the file's lines; `none` models
an uncaught parse exception aborting the load. -/
def loadLines : List Str → SentMap → Option SentMap
  | [], m => some m
  | line :: rest, m =>
    match parseLine line with
    | none => none
    | some (e, t) => loadLines rest (mapAdd m e t)

/-- `load_sent_timestamps()` from the source: if the ledger file does not
exist the result is the empty mapping; otherwise every line is parsed and
folded into the mapping, and a malformed line aborts the load (`none`). -/
def load_sent_timestamps (fileExists : Bool) (content : Str) : Option SentMap :=
  if fileExists then loadLines (pyReadLines content) [] else some []

/-- `save_sent_timestamp(employee_no, timestamp)` from the source: append
one line `f"{employee_no} {timestamp}\n"` to the ledger file. -/
def save_sent_timestamp (file e t : Str) : Str :=
  file ++ e ++ ' ' :: t ++ ['\n']

/-- Membership test through an optional mapping (a failed load has no
members). -/
def memOpt (o : Option SentMap) (e t : Str) : Bool :=
  match o with
  | some m => memTs m e t
  | none => false

/-- Key presence through an optional mapping. -/
def hasKeyOpt (o : Option SentMap) (e : Str) : Bool :=
  match o with
  | some m => hasKey m e
  | none => false

/-! ## Event transformation (`convert_minutes_to_time`) -/

/-- Decimal rendering of a natural number, Python `str(n)` / `repr`. -/
def natRepr (n : Nat) : Str := (Nat.repr n).data

/-- Python `f"{n:02}"`: decimal rendering left-padded with a zero to width
two. -/
def pad2 (n : Nat) : Str :=
  if n < 10 then '0' :: natRepr n else natRepr n

/-- `convert_minutes_to_time(minutes)` from the source:
`f"{minutes // 60:02}:{minutes % 60:02}:00"`. -/
def convert_minutes_to_time (minutes : Nat) : Str :=
  pad2 (minutes / 60) ++ ':' :: pad2 (minutes % 60) ++ [':', '0', '0']

/-! ## Raw device records -/

/-- One element of an employee record's `detailInfo` list: `detail.get
("dateTime")` may be absent (`none`) and `detail.get("timeList", [])`
defaults to the empty list. -/
structure DetailInfo where
  dateTime : Option Str
  timeList : List Nat
  deriving DecidableEq

/-- One raw per-subject record from the device: `employee.get("employeeNo")`
may be absent (`none`). -/
structure EmployeeRecord where
  employeeNo : Option Str
  detailInfo : List DetailInfo
  deriving DecidableEq

/-- Python f-string interpolation of a possibly-`None` value: `None` renders
as the text `"None"`. -/
def pyShowOpt : Option Str → Str
  | none => str "None"
  | some s => s

/-- Python truthiness of `employee.get("employeeNo")`: `None` and the empty
string are falsy (`if not employee_no: continue`). -/
def truthy : Option Str → Bool
  | none => false
  | some [] => false
  | some (_ :: _) => true

/-! ## Delivery and orchestration (`send_to_erpnext` / `process_logs`) -/

/-- The payload of one `send_to_erpnext` call. -/
structure CheckinPayload where
  employee_field_value : Str
  timestamp : Str
  device_id : Str
  log_type : Str
  deriving DecidableEq

/-- The mutable state threaded through `process_logs`: the in-memory
`sent_timestamps` dict, the contents of the durable ledger file, and the
ordered list of `send_to_erpnext` calls issued so far. -/
structure PState where
  sent : SentMap
  file : Str
  calls : List CheckinPayload
  deriving DecidableEq

/-- Lines 150-156 of the source, for one minute offset `t` of one detail:
build the timestamp, skip the event if it is already in the in-memory
mapping, otherwise call `send_to_erpnext` (recorded in `calls`, with success
decided by the `send` oracle) and, on success, add the pair to the in-memory
set (line 155) and then append the durable record (line 156). -/
def processTime (send : Str → Str → Bool) (devId emp date : Str) (t : Nat)
    (st : PState) : PState :=
  let timestamp := date ++ ' ' :: convert_minutes_to_time t
  if memTs st.sent emp timestamp then st
  else
    let st1 := { st with calls := st.calls ++ [⟨emp, timestamp, devId, str "IN"⟩] }
    if send emp timestamp then
      let st2 := { st1 with sent := mapAdd st1.sent emp timestamp }
      { st2 with file := save_sent_timestamp st2.file emp timestamp }
    else st1

/-- The loop `for time in detail.get("timeList", [])`. -/
def processTimes (send : Str → Str → Bool) (devId emp date : Str) :
    List Nat → PState → PState
  | [], st => st
  | t :: rest, st =>
    processTimes send devId emp date rest (processTime send devId emp date t st)

/-- The body of `for detail in employee.get("detailInfo", [])`. -/
def processDetail (send : Str → Str → Bool) (devId emp : Str) (d : DetailInfo)
    (st : PState) : PState :=
  processTimes send devId emp (pyShowOpt d.dateTime) d.timeList st

/-- The loop `for detail in employee.get("detailInfo", [])`. -/
def processDetails (send : Str → Str → Bool) (devId emp : Str) :
    List DetailInfo → PState → PState
  | [], st => st
  | d :: rest, st =>
    processDetails send devId emp rest (processDetail send devId emp d st)

/-- Lines 140-156 of the source for one employee record: skip the record when
`employeeNo` is falsy, otherwise ensure the in-memory key exists (lines
145-146) and process the details. -/
def processRecord (send : Str → Str → Bool) (devId : Str) (r : EmployeeRecord)
    (st : PState) : PState :=
  match r.employeeNo with
  | none => st
  | some e =>
    if e = [] then st
    else processDetails send devId e r.detailInfo { st with sent := ensureKey st.sent e }

/-- The loop `for employee in logs`. -/
def processRecords (send : Str → Str → Bool) (devId : Str) :
    List EmployeeRecord → PState → PState
  | [], st => st
  | r :: rest, st => processRecords send devId rest (processRecord send devId r st)

/-- Lines 158-161 of the source: one `update_last_sync_time` call per shift
type, every one with the single `sync_timestamp` computed before the loop;
`updOk` is the success oracle of the PUT call, whose failure is caught inside
`update_last_sync_time` and therefore never stops the loop.  Each result
entry is `(shift type, timestamp sent, success)`. -/
def runWatermarks (updOk : Str → Bool) (syncTs : Str) :
    List Str → List (Str × Str × Bool)
  | [] => []
  | sh :: rest => (sh, syncTs, updOk sh) :: runWatermarks updOk syncTs rest

/-- `process_logs(logs, device_id, sent_timestamps)` from the source: process
every record, then run the watermark stage over the fetched shift types. -/
def process_logs (send : Str → Str → Bool) (updOk : Str → Bool)
    (logs : List EmployeeRecord) (devId : Str) (st : PState) (syncTs : Str)
    (shiftTypes : List Str) : PState × List (Str × Str × Bool) :=
  (processRecords send devId logs st, runWatermarks updOk syncTs shiftTypes)

/-- The outcome of one iteration of the `while True` loop in `main`. -/
structure CycleResult where
  st : PState
  watermarks : List (Str × Str × Bool)
  reachedWatermark : Bool
  deriving DecidableEq

/-- One iteration of the loop in `main`: `fetched = none` models a fetch
failure (`fetch_attendance_logs` returned `None`); `if logs:` runs
`process_logs` only when the result is truthy, i.e. a non-empty list.
`reachedWatermark` records whether the watermark stage of `process_logs` was
executed this cycle. -/
def runCycle (send : Str → Str → Bool) (updOk : Str → Bool)
    (fetched : Option (List EmployeeRecord)) (devId : Str) (st : PState)
    (syncTs : Str) (shiftTypes : List Str) : CycleResult :=
  match fetched with
  | none => ⟨st, [], false⟩
  | some logs =>
    if logs.isEmpty then ⟨st, [], false⟩
    else
      let out := process_logs send updOk logs devId st syncTs shiftTypes
      ⟨out.1, out.2, true⟩

/-! ## Derived views of a batch -/

/-- The `(subject, timestamp)` events generated by one detail's time list. -/
def eventsOfTimes (emp date : Str) : List Nat → List (Str × Str)
  | [] => []
  | t :: rest =>
    (emp, date ++ ' ' :: convert_minutes_to_time t) :: eventsOfTimes emp date rest

/-- The events generated by one employee record's details. -/
def eventsOfDetails (emp : Str) : List DetailInfo → List (Str × Str)
  | [] => []
  | d :: rest =>
    eventsOfTimes emp (pyShowOpt d.dateTime) d.timeList ++ eventsOfDetails emp rest

/-- The events generated by one employee record (none when the record lacks
a truthy subject identifier). -/
def eventsOfRecord (r : EmployeeRecord) : List (Str × Str) :=
  match r.employeeNo with
  | none => []
  | some e => if e = [] then [] else eventsOfDetails e r.detailInfo

/-- The events generated by a whole fetched batch, in processing order. -/
def eventsOf : List EmployeeRecord → List (Str × Str)
  | [] => []
  | r :: rest => eventsOfRecord r ++ eventsOf rest

/-- The number of delivery calls issued so far for one event. -/
def callsFor (st : PState) (e t : Str) : Nat :=
  st.calls.countP fun p => decide (p.employee_field_value = e ∧ p.timestamp = t)

/-! ## Further definitions used by the claims -/

/-- The text of the durable record for one pair, as one line (without its
terminating newline): the exact format written by `save_sent_timestamp`. -/
def mkLine (e t : Str) : Str := e ++ ' ' :: t

/-- A ledger file left by this program: empty, or ending in a newline. -/
def goodFile (f : Str) : Prop := f = [] ∨ f.getLast? = some '\n'

/-- The persistence invariant of the claim: every pair present in the
in-memory mapping has its durable record line in the ledger file. -/
def LedgerBacked (st : PState) : Prop :=
  ∀ e t : Str, memTs st.sent e t = true → mkLine e t ∈ pyReadLines st.file

/-- The successive states the program passes through while handling one
minute offset in `process_logs` (lines 150-156 of the source): on a
confirmed delivery the in-memory add of line 155 happens first and the
durable append of line 156 second, so the trace is
before / after-call / after-memory-add / after-durable-append. -/
def deliverTrace (send : Str → Str → Bool) (devId emp date : Str) (t : Nat)
    (st : PState) : List PState :=
  let timestamp := date ++ ' ' :: convert_minutes_to_time t
  if memTs st.sent emp timestamp then [st]
  else
    let st1 := { st with calls := st.calls ++ [⟨emp, timestamp, devId, str "IN"⟩] }
    if send emp timestamp then
      let st2 := { st1 with sent := mapAdd st1.sent emp timestamp }
      [st, st1, st2, { st2 with file := save_sent_timestamp st2.file emp timestamp }]
    else [st, st1]

/-- Writing a sequence of records with `save_sent_timestamp`, left to
right. -/
def saveAll (file : Str) : List (Str × Str) → Str
  | [] => file
  | p :: rest => saveAll (save_sent_timestamp file p.1 p.2) rest

/-- Folding a sequence of pairs into the in-memory mapping, as
`load_sent_timestamps` does line by line. -/
def foldAdd (m : SentMap) : List (Str × Str) → SentMap
  | [] => m
  | p :: rest => foldAdd (mapAdd m p.1 p.2) rest

/-- The text of the durable ledger holding exactly the given records. -/
def ledgerText : List (Str × Str) → Str
  | [] => []
  | p :: rest => p.1 ++ ' ' :: p.2 ++ '\n' :: ledgerText rest

/-- Whether the last character of a string is absent or not whitespace. -/
def lastNonWS (t : Str) : Bool :=
  match t.getLast? with
  | some c => !isPySpace c
  | none => true

/-- Well-formedness of one ledger record: a nonempty subject identifier with
no whitespace characters, and a nonempty timestamp that contains no newline
and does not end in whitespace (it may contain interior spaces). -/
def wfPair (p : Str × Str) : Prop :=
  p.1 ≠ [] ∧ (∀ c ∈ p.1, isPySpace c = false) ∧ p.2 ≠ [] ∧ '\n' ∉ p.2 ∧
    lastNonWS p.2 = true

instance decWfPair (p : Str × Str) : Decidable (wfPair p) := by
  unfold wfPair
  infer_instance

/-- Modelled from the spec: a two-digit zero-padded decimal field. -/
def specPad2 (n : Nat) : Str := [Nat.digitChar (n / 10), Nat.digitChar (n % 10)]

/-- Modelled from the spec: clock time rendered as zero-padded HH:MM:SS with
the second fixed to zero. -/
def specClock (h m : Nat) : Str :=
  specPad2 h ++ ':' :: specPad2 m ++ ':' :: specPad2 0

/-- Two consecutive orchestrator cycles whose fetches both succeed, the
second starting from the state left by the first. -/
def twoCycles (send : Str → Str → Bool) (updOk : Str → Bool)
    (batch1 batch2 : List EmployeeRecord) (devId : Str) (st0 : PState)
    (syncTs : Str) (shiftTypes : List Str) : CycleResult × CycleResult :=
  let r1 := runCycle send updOk (some batch1) devId st0 syncTs shiftTypes
  (r1, runCycle send updOk (some batch2) devId r1.st syncTs shiftTypes)

/-- The concrete three-event cycle of the partial-batch-failure scenario:
three employees with one event each, with delivery succeeding for everything
except the second event. -/
def c3run : CycleResult :=
  runCycle
    (fun e t => !decide (e = str "1002" ∧ t = str "2024-05-01 10:00:00"))
    (fun _ => true)
    (some [⟨some (str "1001"), [⟨some (str "2024-05-01"), [540]⟩]⟩,
           ⟨some (str "1002"), [⟨some (str "2024-05-01"), [600]⟩]⟩,
           ⟨some (str "1003"), [⟨some (str "2024-05-01"), [660]⟩]⟩])
    (str "DEV") ⟨[], [], []⟩ (str "SYNC") [str "Day Shift", str "Night Shift"]

/-- Processing, from a cold start, a batch holding one record for a subject
whose deliveries all fail. -/
def failRun (devId e : Str) (ds : List DetailInfo) : PState :=
  processRecords (fun _ _ => false) devId [⟨some e, ds⟩] ⟨[], [], []⟩

/-- A concrete one-event batch used to instantiate the idempotence claim. -/
def c2batch : List EmployeeRecord := [⟨some (str "7"), [⟨some (str "D"), [60]⟩]⟩]

/-! ## Ledger membership lemmas -/

theorem memTs_mapAdd_self (m : SentMap) (e t : Str) :
    memTs (mapAdd m e t) e t = true := by
  induction m with
  | nil => simp [mapAdd, memTs, lookupKey]
  | cons p rest ih =>
    obtain ⟨k, s⟩ := p
    by_cases hk : k = e
    · subst hk
      simp only [mapAdd, if_pos rfl, memTs, lookupKey, setAdd]
      by_cases ht : t ∈ s
      · simp [ht]
      · simp [ht]
    · simpa [mapAdd, hk, memTs, lookupKey] using ih

theorem memTs_mapAdd_of_ne (m : SentMap) (a b e t : Str)
    (h : ¬(a = e ∧ b = t)) :
    memTs (mapAdd m a b) e t = memTs m e t := by
  induction m with
  | nil =>
    simp only [mapAdd, memTs, lookupKey]
    by_cases ha : a = e
    · have hb : b ≠ t := fun hb => h ⟨ha, hb⟩
      simp [ha, List.mem_singleton, Ne.symm hb]
    · simp [ha]
  | cons p rest ih =>
    obtain ⟨k, s⟩ := p
    by_cases hk : k = a
    · by_cases he : k = e
      · have ha : a = e := hk.symm.trans he
        have hb : b ≠ t := fun hb => h ⟨ha, hb⟩
        simp only [mapAdd, if_pos hk, memTs, lookupKey, if_pos he, setAdd]
        by_cases hbs : b ∈ s
        · simp [hbs]
        · simp only [if_neg hbs, decide_eq_decide, List.mem_append,
            List.mem_singleton]
          constructor
          · rintro (hts | hts)
            · exact hts
            · exact absurd hts (Ne.symm hb)
          · exact fun hts => Or.inl hts
      · simp [mapAdd, if_pos hk, memTs, lookupKey, he]
    · by_cases he : k = e
      · subst he
        simp [mapAdd, hk, memTs, lookupKey]
      · simpa [mapAdd, hk, memTs, lookupKey, he] using ih

theorem memTs_mapAdd_of_mem (m : SentMap) (a b e t : Str)
    (h : memTs m e t = true) : memTs (mapAdd m a b) e t = true := by
  by_cases hp : a = e ∧ b = t
  · obtain ⟨rfl, rfl⟩ := hp
    exact memTs_mapAdd_self m a b
  · rw [memTs_mapAdd_of_ne m a b e t hp]
    exact h

theorem memTs_append_emptyKey (m : SentMap) (a e t : Str) :
    memTs (m ++ [(a, [])]) e t = memTs m e t := by
  induction m with
  | nil =>
    by_cases ha : a = e
    · simp [memTs, lookupKey, ha]
    · simp [memTs, lookupKey, ha]
  | cons p rest ih =>
    obtain ⟨k, s⟩ := p
    by_cases hk : k = e
    · simp [memTs, lookupKey, hk]
    · simpa [memTs, lookupKey, hk] using ih

theorem memTs_ensureKey (m : SentMap) (a e t : Str) :
    memTs (ensureKey m a) e t = memTs m e t := by
  unfold ensureKey
  by_cases h : hasKey m a = true
  · simp [h]
  · simp only [h]
    simpa using memTs_append_emptyKey m a e t

/-! ## Per-event lemmas about `processTime` -/

theorem callsFor_append (st : PState) (p : CheckinPayload) (e t : Str) :
    callsFor { st with calls := st.calls ++ [p] } e t =
      callsFor st e t +
        (if p.employee_field_value = e ∧ p.timestamp = t then 1 else 0) := by
  simp [callsFor, List.countP_append, List.countP_cons]

theorem processTime_mem (send : Str → Str → Bool) (devId emp date : Str)
    (t : Nat) (st : PState) (e ts : Str) (h : memTs st.sent e ts = true) :
    memTs (processTime send devId emp date t st).sent e ts = true ∧
      callsFor (processTime send devId emp date t st) e ts = callsFor st e ts := by
  unfold processTime
  by_cases hm : memTs st.sent emp (date ++ ' ' :: convert_minutes_to_time t) = true
  · simp [hm, h]
  · have hne : ¬(emp = e ∧ date ++ ' ' :: convert_minutes_to_time t = ts) := by
      rintro ⟨rfl, rfl⟩
      exact hm h
    by_cases hs : send emp (date ++ ' ' :: convert_minutes_to_time t) = true
    · simp only [hm, Bool.false_eq_true, if_false, hs, if_true]
      refine ⟨memTs_mapAdd_of_mem _ _ _ _ _ h, ?_⟩
      simp [callsFor, List.countP_append, List.countP_cons, hne]
    · simp only [hm, Bool.false_eq_true, if_false, hs]
      refine ⟨h, ?_⟩
      simp [callsFor, List.countP_append, List.countP_cons, hne]

theorem processTime_notEvent (send : Str → Str → Bool) (devId emp date : Str)
    (t : Nat) (st : PState) (e ts : Str)
    (h : ¬(emp = e ∧ date ++ ' ' :: convert_minutes_to_time t = ts)) :
    memTs (processTime send devId emp date t st).sent e ts = memTs st.sent e ts ∧
      callsFor (processTime send devId emp date t st) e ts = callsFor st e ts := by
  unfold processTime
  by_cases hm : memTs st.sent emp (date ++ ' ' :: convert_minutes_to_time t) = true
  · simp [hm]
  · by_cases hs : send emp (date ++ ' ' :: convert_minutes_to_time t) = true
    · simp only [hm, Bool.false_eq_true, if_false, hs, if_true]
      refine ⟨memTs_mapAdd_of_ne _ _ _ _ _ h, ?_⟩
      simp [callsFor, List.countP_append, List.countP_cons, h]
    · simp only [hm, Bool.false_eq_true, if_false, hs]
      refine ⟨trivial, ?_⟩
      simp [callsFor, List.countP_append, List.countP_cons, h]

theorem processTime_hit (send : Str → Str → Bool) (devId emp date : Str)
    (t : Nat) (st : PState) (e ts : Str)
    (hp : emp = e ∧ date ++ ' ' :: convert_minutes_to_time t = ts)
    (h0 : memTs st.sent e ts = false) (hs : send e ts = true) :
    memTs (processTime send devId emp date t st).sent e ts = true ∧
      callsFor (processTime send devId emp date t st) e ts = callsFor st e ts + 1 := by
  obtain ⟨rfl, hts⟩ := hp
  unfold processTime
  rw [hts]
  simp only [h0, Bool.false_eq_true, if_false, hs, if_true]
  refine ⟨memTs_mapAdd_self _ _ _, ?_⟩
  simp [callsFor, List.countP_append, List.countP_cons]

/-! ## Batch-level lemmas: events already in the ledger stay there and are
never re-sent; absent events leave the state untouched; a fresh event whose
delivery succeeds is sent exactly once -/

theorem processTimes_mem (send : Str → Str → Bool) (devId emp date e ts : Str)
    (times : List Nat) :
    ∀ st : PState, memTs st.sent e ts = true →
      memTs (processTimes send devId emp date times st).sent e ts = true ∧
        callsFor (processTimes send devId emp date times st) e ts =
          callsFor st e ts := by
  induction times with
  | nil => exact fun st h => ⟨h, rfl⟩
  | cons t rest ih =>
    intro st h
    simp only [processTimes]
    obtain ⟨h1, h2⟩ := processTime_mem send devId emp date t st e ts h
    obtain ⟨h3, h4⟩ := ih (processTime send devId emp date t st) h1
    exact ⟨h3, h4.trans h2⟩

theorem processTimes_notin (send : Str → Str → Bool) (devId emp date e ts : Str)
    (times : List Nat) :
    ∀ st : PState, (e, ts) ∉ eventsOfTimes emp date times →
      memTs (processTimes send devId emp date times st).sent e ts =
          memTs st.sent e ts ∧
        callsFor (processTimes send devId emp date times st) e ts =
          callsFor st e ts := by
  induction times with
  | nil => exact fun st _ => ⟨rfl, rfl⟩
  | cons t rest ih =>
    intro st hno
    simp only [eventsOfTimes] at hno
    have hne : ¬(emp = e ∧ date ++ ' ' :: convert_minutes_to_time t = ts) := by
      rintro ⟨rfl, rfl⟩
      exact hno (List.mem_cons_self _ _)
    have hno2 : (e, ts) ∉ eventsOfTimes emp date rest := fun hmem =>
      hno (List.mem_cons_of_mem _ hmem)
    simp only [processTimes]
    obtain ⟨h1, h2⟩ := processTime_notEvent send devId emp date t st e ts hne
    obtain ⟨h3, h4⟩ := ih (processTime send devId emp date t st) hno2
    exact ⟨h3.trans h1, h4.trans h2⟩

theorem processTimes_hit (send : Str → Str → Bool) (devId emp date e ts : Str)
    (hs : send e ts = true) (times : List Nat) :
    ∀ st : PState, (e, ts) ∈ eventsOfTimes emp date times →
      memTs st.sent e ts = false →
      memTs (processTimes send devId emp date times st).sent e ts = true ∧
        callsFor (processTimes send devId emp date times st) e ts =
          callsFor st e ts + 1 := by
  induction times with
  | nil =>
    intro st hmem
    simp [eventsOfTimes] at hmem
  | cons t rest ih =>
    intro st hmem h0
    simp only [processTimes]
    by_cases hp : emp = e ∧ date ++ ' ' :: convert_minutes_to_time t = ts
    · obtain ⟨hA, hB⟩ := processTime_hit send devId emp date t st e ts hp h0 hs
      obtain ⟨hC, hD⟩ :=
        processTimes_mem send devId emp date e ts rest
          (processTime send devId emp date t st) hA
      exact ⟨hC, hD.trans hB⟩
    · have hmem2 : (e, ts) ∈ eventsOfTimes emp date rest := by
        simp only [eventsOfTimes] at hmem
        rcases List.mem_cons.mp hmem with hh | hh
        · obtain ⟨he, ht⟩ := Prod.mk.injEq .. |>.mp hh
          exact absurd ⟨he.symm, ht.symm⟩ hp
        · exact hh
      obtain ⟨h1, h2⟩ := processTime_notEvent send devId emp date t st e ts hp
      obtain ⟨h3, h4⟩ := ih (processTime send devId emp date t st) hmem2 (h1.trans h0)
      exact ⟨h3, by rw [h4, h2]⟩

theorem processDetails_mem (send : Str → Str → Bool) (devId emp e ts : Str)
    (ds : List DetailInfo) :
    ∀ st : PState, memTs st.sent e ts = true →
      memTs (processDetails send devId emp ds st).sent e ts = true ∧
        callsFor (processDetails send devId emp ds st) e ts = callsFor st e ts := by
  induction ds with
  | nil => exact fun st h => ⟨h, rfl⟩
  | cons d rest ih =>
    intro st h
    simp only [processDetails, processDetail]
    obtain ⟨h1, h2⟩ :=
      processTimes_mem send devId emp (pyShowOpt d.dateTime) e ts d.timeList st h
    obtain ⟨h3, h4⟩ := ih _ h1
    exact ⟨h3, h4.trans h2⟩

theorem processDetails_notin (send : Str → Str → Bool) (devId emp e ts : Str)
    (ds : List DetailInfo) :
    ∀ st : PState, (e, ts) ∉ eventsOfDetails emp ds →
      memTs (processDetails send devId emp ds st).sent e ts = memTs st.sent e ts ∧
        callsFor (processDetails send devId emp ds st) e ts = callsFor st e ts := by
  induction ds with
  | nil => exact fun st _ => ⟨rfl, rfl⟩
  | cons d rest ih =>
    intro st hno
    simp only [eventsOfDetails, List.mem_append] at hno
    push_neg at hno
    simp only [processDetails, processDetail]
    obtain ⟨h1, h2⟩ :=
      processTimes_notin send devId emp (pyShowOpt d.dateTime) e ts d.timeList st
        hno.1
    obtain ⟨h3, h4⟩ := ih _ hno.2
    exact ⟨h3.trans h1, h4.trans h2⟩

theorem processDetails_hit (send : Str → Str → Bool) (devId emp e ts : Str)
    (hs : send e ts = true) (ds : List DetailInfo) :
    ∀ st : PState, (e, ts) ∈ eventsOfDetails emp ds →
      memTs st.sent e ts = false →
      memTs (processDetails send devId emp ds st).sent e ts = true ∧
        callsFor (processDetails send devId emp ds st) e ts = callsFor st e ts + 1 := by
  induction ds with
  | nil =>
    intro st hmem
    simp [eventsOfDetails] at hmem
  | cons d rest ih =>
    intro st hmem h0
    simp only [processDetails, processDetail]
    by_cases hd : (e, ts) ∈ eventsOfTimes emp (pyShowOpt d.dateTime) d.timeList
    · obtain ⟨hA, hB⟩ :=
        processTimes_hit send devId emp (pyShowOpt d.dateTime) e ts hs d.timeList
          st hd h0
      obtain ⟨hC, hD⟩ := processDetails_mem send devId emp e ts rest _ hA
      exact ⟨hC, hD.trans hB⟩
    · have hmem2 : (e, ts) ∈ eventsOfDetails emp rest := by
        simp only [eventsOfDetails, List.mem_append] at hmem
        exact hmem.resolve_left hd
      obtain ⟨h1, h2⟩ :=
        processTimes_notin send devId emp (pyShowOpt d.dateTime) e ts d.timeList st hd
      obtain ⟨h3, h4⟩ := ih _ hmem2 (h1.trans h0)
      exact ⟨h3, by rw [h4, h2]⟩

theorem processRecord_mem (send : Str → Str → Bool) (devId : Str)
    (r : EmployeeRecord) (st : PState) (e ts : Str)
    (h : memTs st.sent e ts = true) :
    memTs (processRecord send devId r st).sent e ts = true ∧
      callsFor (processRecord send devId r st) e ts = callsFor st e ts := by
  obtain ⟨eno, ds⟩ := r
  cases eno with
  | none => exact ⟨h, rfl⟩
  | some e2 =>
    simp only [processRecord]
    by_cases he2 : e2 = []
    · simp [he2, h]
    · simp only [if_neg he2]
      have hk : memTs (ensureKey st.sent e2) e ts = true := by
        rw [memTs_ensureKey]
        exact h
      exact processDetails_mem send devId e2 e ts ds _ hk

theorem processRecord_notin (send : Str → Str → Bool) (devId : Str)
    (r : EmployeeRecord) (st : PState) (e ts : Str)
    (hno : (e, ts) ∉ eventsOfRecord r) :
    memTs (processRecord send devId r st).sent e ts = memTs st.sent e ts ∧
      callsFor (processRecord send devId r st) e ts = callsFor st e ts := by
  obtain ⟨eno, ds⟩ := r
  cases eno with
  | none => exact ⟨rfl, rfl⟩
  | some e2 =>
    simp only [processRecord, eventsOfRecord] at hno ⊢
    by_cases he2 : e2 = []
    · simp [he2]
    · simp only [if_neg he2] at hno ⊢
      obtain ⟨h1, h2⟩ := processDetails_notin send devId e2 e ts ds
        { st with sent := ensureKey st.sent e2 } hno
      refine ⟨h1.trans ?_, h2⟩
      exact memTs_ensureKey st.sent e2 e ts

theorem processRecord_hit (send : Str → Str → Bool) (devId : Str)
    (r : EmployeeRecord) (st : PState) (e ts : Str)
    (hs : send e ts = true) (hmem : (e, ts) ∈ eventsOfRecord r)
    (h0 : memTs st.sent e ts = false) :
    memTs (processRecord send devId r st).sent e ts = true ∧
      callsFor (processRecord send devId r st) e ts = callsFor st e ts + 1 := by
  obtain ⟨eno, ds⟩ := r
  cases eno with
  | none => simp [eventsOfRecord] at hmem
  | some e2 =>
    simp only [processRecord, eventsOfRecord] at hmem ⊢
    by_cases he2 : e2 = []
    · simp [if_pos he2] at hmem
    · simp only [if_neg he2] at hmem ⊢
      have h02 : memTs (ensureKey st.sent e2) e ts = false := by
        rw [memTs_ensureKey]
        exact h0
      exact processDetails_hit send devId e2 e ts hs ds
        { st with sent := ensureKey st.sent e2 } hmem h02

theorem processRecords_mem (send : Str → Str → Bool) (devId e ts : Str)
    (logs : List EmployeeRecord) :
    ∀ st : PState, memTs st.sent e ts = true →
      memTs (processRecords send devId logs st).sent e ts = true ∧
        callsFor (processRecords send devId logs st) e ts = callsFor st e ts := by
  induction logs with
  | nil => exact fun st h => ⟨h, rfl⟩
  | cons r rest ih =>
    intro st h
    simp only [processRecords]
    obtain ⟨h1, h2⟩ := processRecord_mem send devId r st e ts h
    obtain ⟨h3, h4⟩ := ih _ h1
    exact ⟨h3, h4.trans h2⟩

theorem processRecords_notin (send : Str → Str → Bool) (devId e ts : Str)
    (logs : List EmployeeRecord) :
    ∀ st : PState, (e, ts) ∉ eventsOf logs →
      memTs (processRecords send devId logs st).sent e ts = memTs st.sent e ts ∧
        callsFor (processRecords send devId logs st) e ts = callsFor st e ts := by
  induction logs with
  | nil => exact fun st _ => ⟨rfl, rfl⟩
  | cons r rest ih =>
    intro st hno
    simp only [eventsOf, List.mem_append] at hno
    push_neg at hno
    simp only [processRecords]
    obtain ⟨h1, h2⟩ := processRecord_notin send devId r st e ts hno.1
    obtain ⟨h3, h4⟩ := ih _ hno.2
    exact ⟨h3.trans h1, h4.trans h2⟩

theorem processRecords_hit (send : Str → Str → Bool) (devId e ts : Str)
    (hs : send e ts = true) (logs : List EmployeeRecord) :
    ∀ st : PState, (e, ts) ∈ eventsOf logs →
      memTs st.sent e ts = false →
      memTs (processRecords send devId logs st).sent e ts = true ∧
        callsFor (processRecords send devId logs st) e ts = callsFor st e ts + 1 := by
  induction logs with
  | nil =>
    intro st hmem
    simp [eventsOf] at hmem
  | cons r rest ih =>
    intro st hmem h0
    simp only [processRecords]
    by_cases hr : (e, ts) ∈ eventsOfRecord r
    · obtain ⟨hA, hB⟩ := processRecord_hit send devId r st e ts hs hr h0
      obtain ⟨hC, hD⟩ := processRecords_mem send devId e ts rest _ hA
      exact ⟨hC, hD.trans hB⟩
    · have hmem2 : (e, ts) ∈ eventsOf rest := by
        simp only [eventsOf, List.mem_append] at hmem
        exact hmem.resolve_left hr
      obtain ⟨h1, h2⟩ := processRecord_notin send devId r st e ts hr
      obtain ⟨h3, h4⟩ := ih _ hmem2 (h1.trans h0)
      exact ⟨h3, by rw [h4, h2]⟩

/-! ## File and parsing lemmas -/

theorem pyReadLines_ne_nil (cs : Str) (h : cs ≠ []) : pyReadLines cs ≠ [] := by
  cases cs with
  | nil => exact absurd rfl h
  | cons c rest =>
    simp only [pyReadLines]
    by_cases hc : c = '\n'
    · simp [hc]
    · simp only [hc, if_false]
      cases hpr : pyReadLines rest with
      | nil => simp
      | cons l ls => simp

theorem pyReadLines_cons_newline (zs : Str) :
    pyReadLines ('\n' :: zs) = [] :: pyReadLines zs := by
  simp [pyReadLines]

theorem pyReadLines_cons_of_ne (c : Char) (hc : ¬c = '\n') (zs l : Str)
    (ls : List Str) (hzs : pyReadLines zs = l :: ls) :
    pyReadLines (c :: zs) = (c :: l) :: ls := by
  simp [pyReadLines, hc, hzs]

theorem pyReadLines_append_line (xs rest : Str) (h : '\n' ∉ xs) :
    pyReadLines (xs ++ '\n' :: rest) = xs :: pyReadLines rest := by
  induction xs with
  | nil => simp [pyReadLines]
  | cons c xs ih =>
    have hc : ¬c = '\n' := fun hh => h (by rw [hh]; exact List.mem_cons_self _ _)
    have h2 : '\n' ∉ xs := fun hm => h (List.mem_cons_of_mem _ hm)
    rw [List.cons_append]
    exact pyReadLines_cons_of_ne c hc _ _ _ (ih h2)

theorem pyReadLines_append (cs : Str) :
    ∀ g : Str, goodFile cs →
      pyReadLines (cs ++ g) = pyReadLines cs ++ pyReadLines g := by
  induction cs with
  | nil =>
    intro g _
    simp [pyReadLines]
  | cons c cs ih =>
    intro g hend
    rcases hend with hnil | hlast
    · exact absurd hnil (List.cons_ne_nil c cs)
    · by_cases hcs : cs = []
      · subst hcs
        have hc : c = '\n' := by simpa using hlast
        subst hc
        simp [pyReadLines]
      · obtain ⟨c2, cs2, rfl⟩ := List.exists_cons_of_ne_nil hcs
        have hend2 : goodFile (c2 :: cs2) :=
          Or.inr (by rw [← List.getLast?_cons_cons]; exact hlast)
        by_cases hc : c = '\n'
        · subst hc
          calc pyReadLines (('\n' :: c2 :: cs2) ++ g)
              = [] :: pyReadLines ((c2 :: cs2) ++ g) := by
                rw [List.cons_append, pyReadLines_cons_newline]
            _ = [] :: (pyReadLines (c2 :: cs2) ++ pyReadLines g) := by
                rw [ih g hend2]
            _ = pyReadLines ('\n' :: c2 :: cs2) ++ pyReadLines g := by
                rw [pyReadLines_cons_newline, List.cons_append]
        · have hpr := pyReadLines_ne_nil (c2 :: cs2) (List.cons_ne_nil _ _)
          obtain ⟨l, ls, hls⟩ : ∃ l ls, pyReadLines (c2 :: cs2) = l :: ls := by
            cases hx : pyReadLines (c2 :: cs2) with
            | nil => exact absurd hx hpr
            | cons l ls => exact ⟨l, ls, rfl⟩
          have hcg : pyReadLines ((c2 :: cs2) ++ g) =
              l :: (ls ++ pyReadLines g) := by
            rw [ih g hend2, hls, List.cons_append]
          calc pyReadLines ((c :: c2 :: cs2) ++ g)
              = (c :: l) :: (ls ++ pyReadLines g) := by
                rw [List.cons_append]
                exact pyReadLines_cons_of_ne c hc _ _ _ hcg
            _ = ((c :: l) :: ls) ++ pyReadLines g := by
                rw [List.cons_append]
            _ = pyReadLines (c :: c2 :: cs2) ++ pyReadLines g := by
                rw [pyReadLines_cons_of_ne c hc _ _ _ hls]

theorem dropWhile_eq_self_of_head (p : Char → Bool) (l : Str)
    (h : ∀ c, l.head? = some c → p c = false) : l.dropWhile p = l := by
  cases l with
  | nil => rfl
  | cons a t =>
    have ha := h a rfl
    simp [List.dropWhile_cons, ha]

theorem pyStrip_eq_self (cs : Str)
    (h1 : ∀ c, cs.head? = some c → isPySpace c = false)
    (h2 : ∀ c, cs.getLast? = some c → isPySpace c = false) :
    pyStrip cs = cs := by
  have h3 : ∀ c, cs.reverse.head? = some c → isPySpace c = false := by
    intro c hc
    exact h2 c (by rwa [List.head?_reverse] at hc)
  unfold pyStrip
  rw [dropWhile_eq_self_of_head _ _ h1, dropWhile_eq_self_of_head _ _ h3,
    List.reverse_reverse]

theorem splitFirstSpace_append (e t : Str) (h : ' ' ∉ e) :
    splitFirstSpace (e ++ ' ' :: t) = some (e, t) := by
  induction e with
  | nil => simp [splitFirstSpace]
  | cons c cs ih =>
    have hc : ¬c = ' ' := fun hh => h (by rw [hh]; exact List.mem_cons_self _ _)
    have h2 : ' ' ∉ cs := fun hm => h (List.mem_cons_of_mem _ hm)
    simp only [List.cons_append, splitFirstSpace, hc, if_false, List.append_eq,
      ih h2]

theorem getLast?_mkLine (e t : Str) (ht : t ≠ []) :
    (mkLine e t).getLast? = t.getLast? := by
  obtain ⟨t0, t2, rfl⟩ := List.exists_cons_of_ne_nil ht
  show (e ++ ' ' :: t0 :: t2).getLast? = (t0 :: t2).getLast?
  rw [List.getLast?_append, List.getLast?_cons_cons,
    List.getLast?_eq_getLast _ (List.cons_ne_nil t0 t2)]
  rfl

theorem parseLine_mkLine (e t : Str) (he : e ≠ [])
    (hew : ∀ c ∈ e, isPySpace c = false) (ht : t ≠ [])
    (htl : lastNonWS t = true) :
    parseLine (mkLine e t) = some (e, t) := by
  have hsp : ' ' ∉ e := by
    intro hmem
    have hx := hew ' ' hmem
    simp [isPySpace] at hx
  have hstrip : pyStrip (mkLine e t) = mkLine e t := by
    apply pyStrip_eq_self
    · intro c hc
      obtain ⟨c0, e2, rfl⟩ := List.exists_cons_of_ne_nil he
      simp only [mkLine, List.cons_append, List.head?_cons,
        Option.some.injEq] at hc
      refine hew c ?_
      rw [← hc]
      exact List.mem_cons_self _ _
    · intro c hc
      rw [getLast?_mkLine e t ht] at hc
      unfold lastNonWS at htl
      rw [hc] at htl
      simpa using htl
  unfold parseLine
  rw [hstrip]
  exact splitFirstSpace_append e t hsp

/-! ## Round-trip lemmas for the durable ledger -/

theorem memTs_mapAdd_eq (m : SentMap) (a b e t : Str) :
    memTs (mapAdd m a b) e t =
      (memTs m e t || (decide (a = e) && decide (b = t))) := by
  by_cases hp : a = e ∧ b = t
  · obtain ⟨rfl, rfl⟩ := hp
    simp [memTs_mapAdd_self]
  · rw [memTs_mapAdd_of_ne m a b e t hp]
    rcases not_and_or.mp hp with h | h
    · simp [h]
    · simp [h]

theorem memTs_foldAdd (e t : Str) (pairs : List (Str × Str)) :
    ∀ m : SentMap,
      memTs (foldAdd m pairs) e t =
        (memTs m e t || pairs.any fun p => decide (p.1 = e) && decide (p.2 = t)) := by
  induction pairs with
  | nil => intro m; simp [foldAdd]
  | cons p rest ih =>
    intro m
    simp only [foldAdd, List.any_cons]
    rw [ih, memTs_mapAdd_eq]
    rw [Bool.or_assoc]

theorem saveAll_eq (pairs : List (Str × Str)) :
    ∀ file : Str, saveAll file pairs = file ++ ledgerText pairs := by
  induction pairs with
  | nil => intro file; simp [saveAll, ledgerText]
  | cons p rest ih =>
    intro file
    simp only [saveAll, ledgerText, save_sent_timestamp]
    rw [ih]
    simp [List.append_assoc]

theorem pyReadLines_ledgerText (pairs : List (Str × Str))
    (h : ∀ p ∈ pairs, '\n' ∉ p.1 ∧ '\n' ∉ p.2) :
    pyReadLines (ledgerText pairs) = pairs.map fun p => mkLine p.1 p.2 := by
  induction pairs with
  | nil => simp [ledgerText, pyReadLines]
  | cons p rest ih =>
    have hp := h p (List.mem_cons_self _ _)
    have hline : '\n' ∉ mkLine p.1 p.2 := by
      intro hm
      rcases List.mem_append.mp hm with hm | hm
      · exact hp.1 hm
      · rcases List.mem_cons.mp hm with hm | hm
        · exact absurd hm (by decide)
        · exact hp.2 hm
    have hassoc : ledgerText (p :: rest) = mkLine p.1 p.2 ++ '\n' :: ledgerText rest := by
      simp [ledgerText, mkLine, List.append_assoc]
    rw [hassoc, pyReadLines_append_line _ _ hline,
      ih fun q hq => h q (List.mem_cons_of_mem _ hq), List.map_cons]

theorem loadLines_map (pairs : List (Str × Str))
    (h : ∀ p ∈ pairs, parseLine (mkLine p.1 p.2) = some p) :
    ∀ m : SentMap,
      loadLines (pairs.map fun p => mkLine p.1 p.2) m = some (foldAdd m pairs) := by
  induction pairs with
  | nil => intro m; simp [loadLines, foldAdd]
  | cons p rest ih =>
    intro m
    simp only [List.map_cons, loadLines, h p (List.mem_cons_self _ _), foldAdd]
    exact ih (fun q hq => h q (List.mem_cons_of_mem _ hq)) (mapAdd m p.1 p.2)

theorem loadLines_none (lines : List Str) :
    ∀ m : SentMap, (∃ l ∈ lines, parseLine l = none) → loadLines lines m = none := by
  induction lines with
  | nil =>
    intro m h
    simp at h
  | cons l rest ih =>
    intro m h
    simp only [loadLines]
    cases hp : parseLine l with
    | none => rfl
    | some p =>
      obtain ⟨l2, hl2, hnone⟩ := h
      rcases List.mem_cons.mp hl2 with rfl | hl2
      · rw [hp] at hnone
        exact absurd hnone (by simp)
      · obtain ⟨a, b⟩ := p
        exact ih _ ⟨l2, hl2, hnone⟩

/-! ## Failure-only runs leave the ledger untouched -/

theorem processTime_fail (devId emp date : Str) (t : Nat) (st : PState) :
    (processTime (fun _ _ => false) devId emp date t st).sent = st.sent ∧
      (processTime (fun _ _ => false) devId emp date t st).file = st.file := by
  unfold processTime
  by_cases hm : memTs st.sent emp (date ++ ' ' :: convert_minutes_to_time t) = true
  · simp [hm]
  · simp [hm]

theorem processTimes_fail (devId emp date : Str) (times : List Nat) :
    ∀ st : PState,
      (processTimes (fun _ _ => false) devId emp date times st).sent = st.sent ∧
        (processTimes (fun _ _ => false) devId emp date times st).file = st.file := by
  induction times with
  | nil => exact fun st => ⟨rfl, rfl⟩
  | cons t rest ih =>
    intro st
    simp only [processTimes]
    obtain ⟨h1, h2⟩ := processTime_fail devId emp date t st
    obtain ⟨h3, h4⟩ := ih (processTime (fun _ _ => false) devId emp date t st)
    exact ⟨h3.trans h1, h4.trans h2⟩

theorem processDetails_fail (devId emp : Str) (ds : List DetailInfo) :
    ∀ st : PState,
      (processDetails (fun _ _ => false) devId emp ds st).sent = st.sent ∧
        (processDetails (fun _ _ => false) devId emp ds st).file = st.file := by
  induction ds with
  | nil => exact fun st => ⟨rfl, rfl⟩
  | cons d rest ih =>
    intro st
    simp only [processDetails, processDetail]
    obtain ⟨h1, h2⟩ := processTimes_fail devId emp (pyShowOpt d.dateTime) d.timeList st
    obtain ⟨h3, h4⟩ := ih (processTimes (fun _ _ => false) devId emp
      (pyShowOpt d.dateTime) d.timeList st)
    exact ⟨h3.trans h1, h4.trans h2⟩

/-! ## Persistence-invariant lemmas -/

theorem goodFile_save (f emp T : Str) :
    goodFile (save_sent_timestamp f emp T) := by
  right
  have hshape : save_sent_timestamp f emp T = (f ++ emp ++ ' ' :: T) ++ ['\n'] := by
    simp [save_sent_timestamp, List.append_assoc]
  rw [hshape, List.getLast?_concat]

theorem pyReadLines_save (f emp T : Str) (hg : goodFile f)
    (hne : '\n' ∉ emp) (hnt : '\n' ∉ T) :
    pyReadLines (save_sent_timestamp f emp T) =
      pyReadLines f ++ [mkLine emp T] := by
  have hline : '\n' ∉ mkLine emp T := by
    intro hm
    rcases List.mem_append.mp hm with hm | hm
    · exact hne hm
    · rcases List.mem_cons.mp hm with hm | hm
      · exact absurd hm (by decide)
      · exact hnt hm
  have hshape : save_sent_timestamp f emp T = f ++ (mkLine emp T ++ '\n' :: []) := by
    simp [save_sent_timestamp, mkLine, List.append_assoc]
  rw [hshape, pyReadLines_append f _ hg, pyReadLines_append_line _ _ hline]
  rfl

theorem backed_update (st : PState) (emp T : Str) (cs : List CheckinPayload)
    (hg : goodFile st.file) (hb : LedgerBacked st)
    (hne : '\n' ∉ emp) (hnt : '\n' ∉ T) :
    LedgerBacked ⟨mapAdd st.sent emp T, save_sent_timestamp st.file emp T, cs⟩ := by
  intro e2 t2 hmem
  change memTs (mapAdd st.sent emp T) e2 t2 = true at hmem
  change mkLine e2 t2 ∈ pyReadLines (save_sent_timestamp st.file emp T)
  have hmem2 : memTs st.sent e2 t2 = true ∨ (emp = e2 ∧ T = t2) := by
    rw [memTs_mapAdd_eq] at hmem
    simpa using hmem
  rw [pyReadLines_save st.file emp T hg hne hnt]
  rcases hmem2 with hold | ⟨rfl, rfl⟩
  · exact List.mem_append_left _ (hb e2 t2 hold)
  · exact List.mem_append_right _ (List.mem_cons_self _ _)

theorem backed_ensureKey (st : PState) (e2 : Str) (hb : LedgerBacked st) :
    LedgerBacked { st with sent := ensureKey st.sent e2 } := by
  intro e t hmem
  change memTs (ensureKey st.sent e2) e t = true at hmem
  rw [memTs_ensureKey] at hmem
  exact hb e t hmem

theorem processTime_backed (send : Str → Str → Bool) (devId emp date : Str)
    (t : Nat) (st : PState) (hg : goodFile st.file) (hb : LedgerBacked st)
    (hne : '\n' ∉ emp) (hnt : '\n' ∉ date ++ ' ' :: convert_minutes_to_time t) :
    goodFile (processTime send devId emp date t st).file ∧
      LedgerBacked (processTime send devId emp date t st) := by
  unfold processTime
  by_cases hm : memTs st.sent emp (date ++ ' ' :: convert_minutes_to_time t) = true
  · simp only [hm, if_true]
    exact ⟨hg, hb⟩
  · by_cases hs : send emp (date ++ ' ' :: convert_minutes_to_time t) = true
    · simp only [hm, Bool.false_eq_true, if_false, hs, if_true]
      exact ⟨goodFile_save _ _ _, backed_update st emp _ _ hg hb hne hnt⟩
    · simp only [hm, Bool.false_eq_true, if_false, hs]
      exact ⟨hg, hb⟩

theorem processTimes_backed (send : Str → Str → Bool) (devId emp date : Str)
    (times : List Nat) :
    ∀ st : PState, goodFile st.file → LedgerBacked st →
      (∀ p ∈ eventsOfTimes emp date times, '\n' ∉ p.1 ∧ '\n' ∉ p.2) →
      goodFile (processTimes send devId emp date times st).file ∧
        LedgerBacked (processTimes send devId emp date times st) := by
  induction times with
  | nil => exact fun st hg hb _ => ⟨hg, hb⟩
  | cons t rest ih =>
    intro st hg hb hwf
    have hhd := hwf (emp, date ++ ' ' :: convert_minutes_to_time t)
      (by simp only [eventsOfTimes]; exact List.mem_cons_self _ _)
    simp only [processTimes]
    obtain ⟨hg2, hb2⟩ :=
      processTime_backed send devId emp date t st hg hb hhd.1 hhd.2
    exact ih _ hg2 hb2 fun p hp =>
      hwf p (by simp only [eventsOfTimes]; exact List.mem_cons_of_mem _ hp)

theorem processDetails_backed (send : Str → Str → Bool) (devId emp : Str)
    (ds : List DetailInfo) :
    ∀ st : PState, goodFile st.file → LedgerBacked st →
      (∀ p ∈ eventsOfDetails emp ds, '\n' ∉ p.1 ∧ '\n' ∉ p.2) →
      goodFile (processDetails send devId emp ds st).file ∧
        LedgerBacked (processDetails send devId emp ds st) := by
  induction ds with
  | nil => exact fun st hg hb _ => ⟨hg, hb⟩
  | cons d rest ih =>
    intro st hg hb hwf
    simp only [processDetails, processDetail]
    obtain ⟨hg2, hb2⟩ :=
      processTimes_backed send devId emp (pyShowOpt d.dateTime) d.timeList st hg hb
        fun p hp =>
          hwf p (by
            simp only [eventsOfDetails]
            exact List.mem_append_left _ hp)
    exact ih _ hg2 hb2 fun p hp =>
      hwf p (by
        simp only [eventsOfDetails]
        exact List.mem_append_right _ hp)

theorem processRecord_backed (send : Str → Str → Bool) (devId : Str)
    (r : EmployeeRecord) (st : PState) (hg : goodFile st.file)
    (hb : LedgerBacked st)
    (hwf : ∀ p ∈ eventsOfRecord r, '\n' ∉ p.1 ∧ '\n' ∉ p.2) :
    goodFile (processRecord send devId r st).file ∧
      LedgerBacked (processRecord send devId r st) := by
  obtain ⟨eno, ds⟩ := r
  cases eno with
  | none => exact ⟨hg, hb⟩
  | some e2 =>
    simp only [processRecord]
    by_cases he2 : e2 = []
    · simp only [if_pos he2]
      exact ⟨hg, hb⟩
    · simp only [if_neg he2]
      refine processDetails_backed send devId e2 ds _ hg
        (backed_ensureKey st e2 hb) ?_
      intro p hp
      refine hwf p ?_
      simp only [eventsOfRecord, if_neg he2]
      exact hp

theorem processRecords_backed (send : Str → Str → Bool) (devId : Str)
    (logs : List EmployeeRecord) :
    ∀ st : PState, goodFile st.file → LedgerBacked st →
      (∀ p ∈ eventsOf logs, '\n' ∉ p.1 ∧ '\n' ∉ p.2) →
      goodFile (processRecords send devId logs st).file ∧
        LedgerBacked (processRecords send devId logs st) := by
  induction logs with
  | nil => exact fun st hg hb _ => ⟨hg, hb⟩
  | cons r rest ih =>
    intro st hg hb hwf
    simp only [processRecords]
    obtain ⟨hg2, hb2⟩ := processRecord_backed send devId r st hg hb fun p hp =>
      hwf p (by
        simp only [eventsOf]
        exact List.mem_append_left _ hp)
    exact ih _ hg2 hb2 fun p hp =>
      hwf p (by
        simp only [eventsOf]
        exact List.mem_append_right _ hp)

/-! ## Cycle-level helpers -/

theorem runCycle_cons (send : Str → Str → Bool) (updOk : Str → Bool)
    (r : EmployeeRecord) (rest : List EmployeeRecord) (devId : Str)
    (st : PState) (syncTs : Str) (shiftTypes : List Str) :
    runCycle send updOk (some (r :: rest)) devId st syncTs shiftTypes =
      ⟨processRecords send devId (r :: rest) st,
        runWatermarks updOk syncTs shiftTypes, true⟩ := rfl

theorem ne_nil_of_mem_eventsOf {p : Str × Str} {logs : List EmployeeRecord}
    (h : p ∈ eventsOf logs) : logs ≠ [] := by
  intro hnil
  subst hnil
  simp [eventsOf] at h

theorem pad2_eq_specPad2 : ∀ n < 100, pad2 n = specPad2 n := by decide

/-! ## Claims -/

/-- Claim C1, counterexample: on a confirmed delivery from a cold start the
program passes through a state (between lines 155 and 156 of the source)
whose in-memory mapping contains the pair while the reloaded durable ledger
does not: the durable record is not written before (nor atomically with) the
in-memory add. -/
theorem c1_counterexample :
    ∃ st ∈ deliverTrace (fun _ _ => true) (str "DEV") (str "E1")
        (str "2024-01-01") 90 ⟨[], [], []⟩,
      memTs st.sent (str "E1") (str "2024-01-01 01:30:00") = true ∧
      memOpt (load_sent_timestamps true st.file) (str "E1")
        (str "2024-01-01 01:30:00") = false := by decide

/-- Claim C1, amended: on a confirmed delivery the in-memory add (line 155)
happens first and the durable append (line 156) immediately after, so the
invariant that every pair in the in-memory mapping has its durable record in
the ledger file holds at every event boundary, and in particular whenever
`process_logs` returns, though not in the instant between the two updates. -/
theorem c1_theorem (send : Str → Str → Bool) (devId : Str)
    (logs : List EmployeeRecord) (st : PState)
    (hg : goodFile st.file) (hb : LedgerBacked st)
    (hwf : ∀ p ∈ eventsOf logs, '\n' ∉ p.1 ∧ '\n' ∉ p.2) :
    goodFile (processRecords send devId logs st).file ∧
      LedgerBacked (processRecords send devId logs st) :=
  processRecords_backed send devId logs st hg hb hwf

/-- Witness for C1 at a concrete batch from a cold start. -/
theorem c1_witness :
    goodFile (processRecords (fun _ _ => true) (str "DEV")
        [⟨some (str "E1"), [⟨some (str "2024-01-01"), [90]⟩]⟩]
        ⟨[], [], []⟩).file ∧
      LedgerBacked (processRecords (fun _ _ => true) (str "DEV")
        [⟨some (str "E1"), [⟨some (str "2024-01-01"), [90]⟩]⟩] ⟨[], [], []⟩) :=
  c1_theorem (fun _ _ => true) (str "DEV")
    [⟨some (str "E1"), [⟨some (str "2024-01-01"), [90]⟩]⟩] ⟨[], [], []⟩
    (Or.inl rfl) (fun e t h => by simp [memTs, lookupKey] at h) (by decide)

/-- Claim C2: over two consecutive cycles whose fetch results both contain
the event (e, ts), with the event not yet in the ledger and its delivery
succeeding, exactly one delivery call for it is issued: the first cycle
records it, and the second cycle finds it in the ledger and skips it. -/
theorem c2_theorem (send : Str → Str → Bool) (updOk : Str → Bool)
    (batch1 batch2 : List EmployeeRecord) (devId : Str) (st0 : PState)
    (syncTs : Str) (shiftTypes : List Str) (e ts : Str)
    (h0 : memTs st0.sent e ts = false) (hs : send e ts = true)
    (h1 : (e, ts) ∈ eventsOf batch1) (h2 : (e, ts) ∈ eventsOf batch2) :
    memTs (twoCycles send updOk batch1 batch2 devId st0 syncTs
        shiftTypes).1.st.sent e ts = true ∧
    callsFor (twoCycles send updOk batch1 batch2 devId st0 syncTs
        shiftTypes).1.st e ts = callsFor st0 e ts + 1 ∧
    memTs (twoCycles send updOk batch1 batch2 devId st0 syncTs
        shiftTypes).2.st.sent e ts = true ∧
    callsFor (twoCycles send updOk batch1 batch2 devId st0 syncTs
        shiftTypes).2.st e ts =
      callsFor (twoCycles send updOk batch1 batch2 devId st0 syncTs
        shiftTypes).1.st e ts := by
  obtain ⟨rA, restA, rfl⟩ := List.exists_cons_of_ne_nil (ne_nil_of_mem_eventsOf h1)
  obtain ⟨rB, restB, rfl⟩ := List.exists_cons_of_ne_nil (ne_nil_of_mem_eventsOf h2)
  simp only [twoCycles, runCycle_cons]
  obtain ⟨hm1, hc1⟩ := processRecords_hit send devId e ts hs (rA :: restA) st0 h1 h0
  obtain ⟨hm2, hc2⟩ := processRecords_mem send devId e ts (rB :: restB) _ hm1
  exact ⟨hm1, hc1, hm2, hc2⟩

/-- Witness for C2 at a concrete event fetched by both cycles. -/
theorem c2_witness :
    (memTs (⟨[], [], []⟩ : PState).sent (str "7") (str "D 01:00:00") = false ∧
      (str "7", str "D 01:00:00") ∈ eventsOf c2batch) ∧
    memTs (twoCycles (fun _ _ => true) (fun _ => true) c2batch c2batch
        (str "DEV") ⟨[], [], []⟩ (str "TS") [str "Day"]).1.st.sent (str "7")
        (str "D 01:00:00") = true ∧
    callsFor (twoCycles (fun _ _ => true) (fun _ => true) c2batch c2batch
        (str "DEV") ⟨[], [], []⟩ (str "TS") [str "Day"]).1.st (str "7")
        (str "D 01:00:00") = callsFor ⟨[], [], []⟩ (str "7") (str "D 01:00:00") + 1 ∧
    memTs (twoCycles (fun _ _ => true) (fun _ => true) c2batch c2batch
        (str "DEV") ⟨[], [], []⟩ (str "TS") [str "Day"]).2.st.sent (str "7")
        (str "D 01:00:00") = true ∧
    callsFor (twoCycles (fun _ _ => true) (fun _ => true) c2batch c2batch
        (str "DEV") ⟨[], [], []⟩ (str "TS") [str "Day"]).2.st (str "7")
        (str "D 01:00:00") =
      callsFor (twoCycles (fun _ _ => true) (fun _ => true) c2batch c2batch
        (str "DEV") ⟨[], [], []⟩ (str "TS") [str "Day"]).1.st (str "7")
        (str "D 01:00:00") :=
  ⟨⟨by decide, by decide⟩,
    c2_theorem (fun _ _ => true) (fun _ => true) c2batch c2batch (str "DEV")
      ⟨[], [], []⟩ (str "TS") [str "Day"] (str "7") (str "D 01:00:00")
      (by decide) rfl (by decide) (by decide)⟩

/-- Claim C3: in the three-event batch where delivery of the second event
fails and the other two succeed, the first and third events end up in the
in-memory ledger and in the reloaded durable ledger, the second event is in
neither, every event was attempted, and the cycle still runs the watermark
stage over all shift categories. -/
theorem c3_theorem :
    c3run.reachedWatermark = true ∧
    memTs c3run.st.sent (str "1001") (str "2024-05-01 09:00:00") = true ∧
    memTs c3run.st.sent (str "1003") (str "2024-05-01 11:00:00") = true ∧
    memTs c3run.st.sent (str "1002") (str "2024-05-01 10:00:00") = false ∧
    memOpt (load_sent_timestamps true c3run.st.file) (str "1001")
      (str "2024-05-01 09:00:00") = true ∧
    memOpt (load_sent_timestamps true c3run.st.file) (str "1003")
      (str "2024-05-01 11:00:00") = true ∧
    memOpt (load_sent_timestamps true c3run.st.file) (str "1002")
      (str "2024-05-01 10:00:00") = false ∧
    c3run.st.calls.length = 3 ∧
    c3run.watermarks = [(str "Day Shift", str "SYNC", true),
      (str "Night Shift", str "SYNC", true)] := by decide

/-- Claim C4, counterexample: a ledger whose first line has no space makes
`load_sent_timestamps` fail (the unpacking of `split(" ", 1)` raises), rather
than skipping the bad line and returning the mapping built from the
well-formed remainder. -/
theorem c4_counterexample :
    load_sent_timestamps true (str "AB\nX 2024-01-01 09:00:00\n") = none ∧
    load_sent_timestamps true (str "AB\nX 2024-01-01 09:00:00\n") ≠
      some [(str "X", [str "2024-01-01 09:00:00"])] := by decide

/-- Claim C4, amended: when any line of the durable ledger is malformed
(contains no space after stripping), the load fails outright -- it does not
skip the line. -/
theorem c4_theorem (content : Str)
    (h : ∃ l ∈ pyReadLines content, parseLine l = none) :
    load_sent_timestamps true content = none := by
  show loadLines (pyReadLines content) [] = none
  exact loadLines_none (pyReadLines content) [] h

/-- Witness for C4 at a concrete malformed ledger. -/
theorem c4_witness :
    (∃ l ∈ pyReadLines (str "E1 2024-01-01 09:00:00\nE2\n"),
      parseLine l = none) ∧
    load_sent_timestamps true (str "E1 2024-01-01 09:00:00\nE2\n") = none :=
  ⟨by decide, c4_theorem (str "E1 2024-01-01 09:00:00\nE2\n") (by decide)⟩

/-- Claim C5, counterexample: for a subject identifier containing a space,
writing the pair and reloading the ledger yields a mapping in which the pair
is not a member (the loader splits the line at the first space, inside the
identifier), so the round-trip fails for that pair. -/
theorem c5_counterexample :
    memOpt (load_sent_timestamps true
        (save_sent_timestamp [] (str "a b") (str "2024-01-01 09:00:00")))
      (str "a b") (str "2024-01-01 09:00:00") = false := by decide

/-- Claim C5, amended: for records whose subject identifier is nonempty and
free of whitespace and whose timestamp is nonempty, newline-free and does not
end in whitespace, writing each pair with `save_sent_timestamp` and reloading
from the durable text yields a mapping whose membership test holds exactly
for the written pairs. -/
theorem c5_theorem (pairs : List (Str × Str)) (hwf : ∀ p ∈ pairs, wfPair p) :
    (load_sent_timestamps true (saveAll [] pairs)).isSome = true ∧
    ∀ e t : Str,
      memOpt (load_sent_timestamps true (saveAll [] pairs)) e t = true ↔
        (e, t) ∈ pairs := by
  have hnl : ∀ p ∈ pairs, '\n' ∉ p.1 ∧ '\n' ∉ p.2 := by
    intro p hp
    obtain ⟨h1, h2, h3, h4, h5⟩ := hwf p hp
    refine ⟨fun hm => ?_, h4⟩
    have hx := h2 '\n' hm
    simp [isPySpace] at hx
  have hparse : ∀ p ∈ pairs, parseLine (mkLine p.1 p.2) = some p := by
    intro p hp
    obtain ⟨h1, h2, h3, h4, h5⟩ := hwf p hp
    have hx := parseLine_mkLine p.1 p.2 h1 h2 h3 h5
    rwa [Prod.mk.eta] at hx
  have hload : load_sent_timestamps true (saveAll [] pairs) =
      some (foldAdd [] pairs) := by
    show loadLines (pyReadLines (saveAll [] pairs)) [] = some (foldAdd [] pairs)
    rw [saveAll_eq pairs [], List.nil_append, pyReadLines_ledgerText pairs hnl]
    exact loadLines_map pairs hparse []
  refine ⟨by rw [hload]; rfl, ?_⟩
  intro e t
  rw [hload]
  show memTs (foldAdd [] pairs) e t = true ↔ (e, t) ∈ pairs
  rw [memTs_foldAdd e t pairs []]
  have h0 : memTs [] e t = false := rfl
  rw [h0, Bool.false_or, List.any_eq_true]
  constructor
  · rintro ⟨p, hp, hpe⟩
    obtain ⟨p1, p2⟩ := p
    simp only [Bool.and_eq_true, decide_eq_true_eq] at hpe
    obtain ⟨rfl, rfl⟩ := hpe
    exact hp
  · intro hmem
    exact ⟨(e, t), hmem, by simp⟩

/-- Witness for C5 at two concrete records, one with a timestamp containing
a space. -/
theorem c5_witness :
    (∀ p ∈ [(str "A", str "2024-01-01 09:00:00"), (str "B7", str "X 1")],
      wfPair p) ∧
    (load_sent_timestamps true (saveAll []
        [(str "A", str "2024-01-01 09:00:00"), (str "B7", str "X 1")])).isSome
      = true ∧
    ∀ e t : Str,
      memOpt (load_sent_timestamps true (saveAll []
          [(str "A", str "2024-01-01 09:00:00"), (str "B7", str "X 1")])) e t
        = true ↔
        (e, t) ∈ [(str "A", str "2024-01-01 09:00:00"), (str "B7", str "X 1")] :=
  ⟨by decide,
    c5_theorem [(str "A", str "2024-01-01 09:00:00"), (str "B7", str "X 1")]
      (by decide)⟩

/-- Claim C6, counterexample: a cycle whose fetch succeeds with an empty
record list does not reach the watermark stage: the `if logs:` guard in
`main` treats the empty list as falsy and skips `process_logs` entirely. -/
theorem c6_counterexample :
    (runCycle (fun _ _ => true) (fun _ => true) (some []) (str "DEV")
      ⟨[], [], []⟩ (str "TS") [str "Day"]).reachedWatermark = false := by decide

/-- Claim C6, amended: a cycle reaches the watermark stage exactly when its
fetch succeeds with a non-empty record list; both a fetch failure and a
successful fetch returning an empty list short-circuit the cycle without
watermarking (the window still advances outside `process_logs`). -/
theorem c6_theorem (send : Str → Str → Bool) (updOk : Str → Bool)
    (fetched : Option (List EmployeeRecord)) (devId : Str) (st : PState)
    (syncTs : Str) (shiftTypes : List Str) :
    (runCycle send updOk fetched devId st syncTs shiftTypes).reachedWatermark =
      (match fetched with
        | some (_ :: _) => true
        | _ => false) ∧
    (runCycle send updOk fetched devId st syncTs shiftTypes).watermarks =
      (match fetched with
        | some (_ :: _) => runWatermarks updOk syncTs shiftTypes
        | _ => []) := by
  cases fetched with
  | none => exact ⟨rfl, rfl⟩
  | some logs =>
    cases logs with
    | nil => exact ⟨rfl, rfl⟩
    | cons r rest => exact ⟨rfl, rfl⟩

/-- Claim C7: for every minute offset in the device's daily range, the
conversion renders hour = offset div 60 and minute = offset mod 60 as
zero-padded HH:MM:SS with the second fixed to zero; in particular 0, 90 and
1439 map to 00:00:00, 01:30:00 and 23:59:00. -/
theorem c7_theorem (n : Nat) (h : n ≤ 1439) :
    convert_minutes_to_time n = specClock (n / 60) (n % 60) ∧
      convert_minutes_to_time 0 = str "00:00:00" ∧
      convert_minutes_to_time 90 = str "01:30:00" ∧
      convert_minutes_to_time 1439 = str "23:59:00" := by
  refine ⟨?_, by decide, by decide, by decide⟩
  have h1 : n / 60 < 100 := by omega
  have h2 : n % 60 < 100 := by omega
  unfold convert_minutes_to_time specClock
  rw [pad2_eq_specPad2 _ h1, pad2_eq_specPad2 _ h2]
  rfl

/-- Witness for C7 at offset 90. -/
theorem c7_witness :
    90 ≤ 1439 ∧
      (convert_minutes_to_time 90 = specClock (90 / 60) (90 % 60) ∧
        convert_minutes_to_time 0 = str "00:00:00" ∧
        convert_minutes_to_time 90 = str "01:30:00" ∧
        convert_minutes_to_time 1439 = str "23:59:00") :=
  ⟨by decide, c7_theorem 90 (by decide)⟩

/-- Claim C8: a raw record with a falsy subject identifier is skipped: it
generates no events, and removing it from a batch leaves the processing of
the remaining records (state and delivery calls alike) unchanged. -/
theorem c8_theorem (send : Str → Str → Bool) (devId : Str)
    (pre post : List EmployeeRecord) (r : EmployeeRecord) (st : PState)
    (h : truthy r.employeeNo = false) :
    processRecords send devId (pre ++ r :: post) st =
      processRecords send devId (pre ++ post) st ∧
    eventsOfRecord r = [] := by
  have hskip : ∀ st2 : PState, processRecord send devId r st2 = st2 := by
    intro st2
    obtain ⟨eno, ds⟩ := r
    cases eno with
    | none => rfl
    | some e2 =>
      cases e2 with
      | nil => rfl
      | cons c cs => simp [truthy] at h
  have hev : eventsOfRecord r = [] := by
    obtain ⟨eno, ds⟩ := r
    cases eno with
    | none => rfl
    | some e2 =>
      cases e2 with
      | nil => rfl
      | cons c cs => simp [truthy] at h
  refine ⟨?_, hev⟩
  induction pre generalizing st with
  | nil =>
    simp only [List.nil_append, processRecords]
    rw [hskip st]
  | cons q rest ih =>
    simp only [List.cons_append, processRecords]
    exact ih _

/-- Witness for C8 at a concrete batch with a subject-less record between two
deliverable records. -/
theorem c8_witness :
    truthy (⟨none, [⟨some (str "D"), [10]⟩]⟩ : EmployeeRecord).employeeNo
        = false ∧
      (processRecords (fun _ _ => true) (str "DEV")
          ([⟨some (str "1"), [⟨some (str "D"), [60]⟩]⟩] ++
            (⟨none, [⟨some (str "D"), [10]⟩]⟩ : EmployeeRecord) ::
              [⟨some (str "2"), [⟨some (str "D"), [120]⟩]⟩]) ⟨[], [], []⟩ =
        processRecords (fun _ _ => true) (str "DEV")
          ([⟨some (str "1"), [⟨some (str "D"), [60]⟩]⟩] ++
            [⟨some (str "2"), [⟨some (str "D"), [120]⟩]⟩]) ⟨[], [], []⟩ ∧
       eventsOfRecord ⟨none, [⟨some (str "D"), [10]⟩]⟩ = []) :=
  ⟨by decide,
    c8_theorem (fun _ _ => true) (str "DEV")
      [⟨some (str "1"), [⟨some (str "D"), [60]⟩]⟩]
      [⟨some (str "2"), [⟨some (str "D"), [120]⟩]⟩]
      ⟨none, [⟨some (str "D"), [10]⟩]⟩ ⟨[], [], []⟩ (by decide)⟩

/-- Claim C9: the watermark stage sends one update per shift category, every
one carrying the single timestamp computed once for the whole batch, and the
set of attempted updates does not depend on which individual updates fail. -/
theorem c9_theorem (updOk updOk2 : Str → Bool) (syncTs : Str)
    (shiftTypes : List Str) :
    (runWatermarks updOk syncTs shiftTypes).map (fun x => (x.1, x.2.1)) =
      shiftTypes.map (fun sh => (sh, syncTs)) ∧
    (runWatermarks updOk syncTs shiftTypes).map (fun x => (x.1, x.2.1)) =
      (runWatermarks updOk2 syncTs shiftTypes).map (fun x => (x.1, x.2.1)) := by
  induction shiftTypes with
  | nil => exact ⟨rfl, rfl⟩
  | cons sh rest ih =>
    simp only [runWatermarks, List.map_cons]
    exact ⟨by rw [ih.1], by rw [ih.2]⟩

/-- Claim C10 (implicit): a record carrying a subject identifier whose
deliveries all fail still inserts its key with an empty timestamp set into
the in-memory mapping, while the durable ledger file is left untouched, so
the key is present in memory with no durable backing and is gone after a
reload from the durable log. -/
theorem c10_theorem (devId e : Str) (he : e ≠ []) (ds : List DetailInfo) :
    lookupKey (failRun devId e ds).sent e = some [] ∧
    (failRun devId e ds).file = [] ∧
    hasKeyOpt (load_sent_timestamps true (failRun devId e ds).file) e
      = false := by
  have hfail := processDetails_fail devId e ds ⟨ensureKey [] e, [], []⟩
  have heq : failRun devId e ds =
      processDetails (fun _ _ => false) devId e ds ⟨ensureKey [] e, [], []⟩ := by
    unfold failRun
    simp only [processRecords, processRecord, if_neg he]
  refine ⟨?_, ?_, ?_⟩
  · rw [heq, hfail.1]
    show lookupKey (ensureKey [] e) e = some []
    simp [ensureKey, hasKey, lookupKey]
  · rw [heq, hfail.2]
  · rw [heq, hfail.2]
    rfl

/-- Witness for C10 at a concrete subject with one failing event. -/
theorem c10_witness :
    (str "42" ≠ ([] : Str)) ∧
      (lookupKey (failRun (str "DEV") (str "42")
          [⟨some (str "D"), [5]⟩]).sent (str "42") = some [] ∧
        (failRun (str "DEV") (str "42") [⟨some (str "D"), [5]⟩]).file = [] ∧
        hasKeyOpt (load_sent_timestamps true
            (failRun (str "DEV") (str "42") [⟨some (str "D"), [5]⟩]).file)
          (str "42") = false) :=
  ⟨by decide,
    c10_theorem (str "DEV") (str "42") (by decide) [⟨some (str "D"), [5]⟩]⟩

